import Mathlib

/-!
Verification of the replacement planning and safety-classification engine of
`markdown_image_downloader`.  The program's data model and operations are given
a shallow embedding: Python functions become Lean functions, the mutable URL
record store becomes explicit state passing over an insertion-ordered
association list, Python integers become `Int`/`Nat`, and the external
collaborators (the Markdown parser, the HTTP client, the byte sniffer and the
wall clock) become explicit inputs.  Theorems about the specified properties
follow the definitions.
-/

namespace MID

/-- The ASCII whitespace class used by the source's textual pattern
(the regex whitespace class; non-ASCII whitespace does not occur in the
inputs considered here). -/
def isPySpace (c : Char) : Bool :=
  c = ' ' || c = '\t' || c = '\n' || c = '\r' || c.val = 11 || c.val = 12

/-- Models Python `str.startswith`, as a code-point prefix test. -/
def startswith (s pre : String) : Bool :=
  pre.data.isPrefixOf s.data

/-- Contiguous-sublist test on code points, used to model Python
`s.count(substring) > 0`. -/
def listContainsSub (sub : List Char) : List Char → Bool
  | [] => sub.isEmpty
  | c :: rest => sub.isPrefixOf (c :: rest) || listContainsSub sub rest

/-- Models Python `substring in s` / `s.count(substring) > 0`. -/
def containsSub (s sub : String) : Bool :=
  listContainsSub sub.data s.data

/-- The document tree produced by the external Markdown parser
(`marko.parser.Parser().parse`): a closed grammar of containers with
children, embedded-image leaves carrying a destination URL, and other
leaves.  The parser itself is out of scope; trees are inputs here. -/
inductive MdElement where
  | image (dest : String)
  | container (children : List MdElement)
  | leaf

mutual

/-- Source `collect_image_elements`: recursively collects the destinations of
all descendant image nodes of an element, in document order.  (The source
returns the image elements themselves and reads `.dest` afterwards; image
nodes here carry only their destination.  The recursion over a node and over
its child list is split into a mutual pair, as the source's loop over
`element.children`.) -/
def collect_image_elements : MdElement → List String
  | MdElement.image d => [d]
  | MdElement.container cs => collect_image_children cs
  | MdElement.leaf => []

/-- The children loop of `collect_image_elements`. -/
def collect_image_children : List MdElement → List String
  | [] => []
  | e :: es => collect_image_elements e ++ collect_image_children es

end

/-- First-occurrence deduplication, as Python's insertion-ordered
`dict`/`Counter` key order.  `seen` accumulates the keys already emitted. -/
def firstDedupAux (seen : List String) : List String → List String
  | [] => []
  | x :: xs => if x ∈ seen then firstDedupAux seen xs else x :: firstDedupAux (x :: seen) xs

/-- Keys of a Python `Counter` built from a list, in first-occurrence order. -/
def firstDedup (l : List String) : List String :=
  firstDedupAux [] l

/-- The destinations counted by source `get_image_url_counts`: all descendant
image destinations, keeping only those that start with `'http'`
(`img.dest.startswith('http')`). -/
def filtered_image_dests (doc : MdElement) : List String :=
  (collect_image_elements doc).filter (fun d => startswith d "http")

/-- Source `get_image_url_counts`, as the count function of the returned
`Counter`: the number of occurrences of `url` among the kept image
destinations of the parsed document. -/
def get_image_url_counts (doc : MdElement) (url : String) : Nat :=
  (filtered_image_dests doc).count url

/-- The key set of the `Counter` returned by source `get_image_url_counts`,
in first-occurrence order. -/
def image_url_keys (doc : MdElement) : List String :=
  firstDedup (filtered_image_dests doc)

/-- One step of the source regex `\(\s*URL\s*\)` (from `build_url_dest_regex`,
with the URL escaped so it matches literally): attempts a match at the head of
`s`, returning the remainder after the match.  Since the URLs used all start
with `'http'` and `')'` is not whitespace, the greedy whitespace runs of the
regex coincide with maximal whitespace runs, as consumed here. -/
def matchUrlDest (url : List Char) (s : List Char) : Option (List Char) :=
  match s with
  | '(' :: rest =>
    let r1 := rest.dropWhile isPySpace
    if url.isPrefixOf r1 then
      match (r1.drop url.length).dropWhile isPySpace with
      | ')' :: r3 => some r3
      | _ => none
    else none
  | _ => none

/-- `re.findall` over the pattern above: scans left to right, counting
non-overlapping matches; after a match, scanning resumes at the remainder.
`fuel` bounds the recursion; every step consumes at least one character, so
fuel equal to the length of the text is sufficient. -/
def countUrlDestMatches (url : List Char) : Nat → List Char → Nat
  | 0, _ => 0
  | fuel + 1, s =>
    match matchUrlDest url s with
    | some r => 1 + countUrlDestMatches url fuel r
    | none =>
      match s with
      | [] => 0
      | _ :: rest => countUrlDestMatches url fuel rest

/-- Source `get_textual_counts`, for a single URL: the number of matches of
`\(\s*URL\s*\)` in the literal document text.  (The source computes these
counts for a set of URLs at once; per-URL is the same mapping.) -/
def get_textual_counts (md_source : String) (url : String) : Nat :=
  countUrlDestMatches url.data md_source.data.length md_source.data

/-- Source dataclass `FileOccurrenceRecord`, with its field defaults. -/
structure FileOccurrenceRecord where
  filepath : String := ""
  num_image_elements : Nat := 0
  num_extra_textual_occurrences : Int := 0
  replace_successful : Bool := false
deriving DecidableEq

/-- Source method `FileOccurrenceRecord.replacement_unsafe` (renamed here):
replacement is considered safe iff it affects only image elements, i.e. the
check is `num_extra_textual_occurrences > 0`. -/
def FileOccurrenceRecord.replacement_not_safe (fo : FileOccurrenceRecord) : Bool :=
  fo.num_extra_textual_occurrences > 0

/-- Source dataclass `ImageUrlRecord`, with its field defaults. -/
structure ImageUrlRecord where
  url : String := ""
  passes_filters : Bool := false
  original_filename : String := ""
  local_basename : String := ""
  local_ext : String := ""
  download_successful : Bool := false
  file_occurrences : List FileOccurrenceRecord := []
deriving DecidableEq

/-- Source `ImageUrlRecord.local_filename`: basename plus extension when the
extension is known, bare basename otherwise. -/
def ImageUrlRecord.local_filename (r : ImageUrlRecord) : String :=
  if r.local_ext ≠ "" then r.local_basename ++ "." ++ r.local_ext else r.local_basename

/-- Source `ImageUrlRecord.get_file_occurrence`: the first occurrence record
for the given filepath, if any. -/
def ImageUrlRecord.get_file_occurrence (r : ImageUrlRecord) (filepath : String) :
    Option FileOccurrenceRecord :=
  r.file_occurrences.find? (fun fo => fo.filepath = filepath)

/-- Models `os.path.basename`: the part after the last `'/'`. -/
def basename (s : String) : String :=
  ⟨(s.data.reverse.takeWhile (fun c => c ≠ '/')).reverse⟩

/-- Splits a (slash-free) name at its last dot, the dot going to the extension
side; a run of leading dots never starts an extension.  Models
`os.path.splitext` on the basenames this program feeds it. -/
def splitext (filename : String) : String × String :=
  let s := filename.data
  let leadingDots := s.takeWhile (fun c => c = '.')
  let rest := s.dropWhile (fun c => c = '.')
  let tailLen := (rest.reverse.takeWhile (fun c => c ≠ '.')).length
  if tailLen = rest.length then (⟨leadingDots ++ rest⟩, ⟨[]⟩)
  else (⟨leadingDots ++ rest.take (rest.length - tailLen - 1)⟩,
        ⟨rest.drop (rest.length - tailLen - 1)⟩)

/-- Models `ext.replace('.', '')`: drops every dot. -/
def stripDots (s : String) : String :=
  ⟨s.data.filter (fun c => c ≠ '.')⟩

/-- The candidate root tried with numeric suffix `k`:
`f'{root}_{candidate_unique_suffix}'`. -/
def candidateRoot (base : String) (k : Nat) : String :=
  base ++ "_" ++ Nat.repr k

/-- The fixed part of the transformed root: the original root (the source
computes `root.replace(' ', '_')` but discards the result, so spaces are
preserved) followed by `'_' + str(int(time.time()))`.  The wall-clock value
`ts` is an explicit input. -/
def uniquifiedBase (filename : String) (ts : Nat) : String :=
  (splitext filename).1 ++ "_" ++ Nat.repr ts

/-- The numeric suffix chosen by the source's `while True` search: the least
`k` starting from `0` whose candidate root is not claimed.  The search is
bounded by the size of the claimed set for decidability; a later theorem shows
a free suffix always exists within that bound (so the fallback branch is never
taken) and that the chosen suffix is least among all free suffixes, which is
exactly the unbounded loop's result. -/
def chosen_suffix (roots : Finset String) (filename : String) (ts : Nat) : Nat :=
  if h : ∃ k, k < roots.card + 1 ∧ candidateRoot (uniquifiedBase filename ts) k ∉ roots then
    Nat.find h
  else 0

/-- Source `LogseqImageFilenameTransformer.get_uniquified_filename`, with the
claimed-root set and the wall-clock value as explicit state: returns
`(candidate_filename_root, ext-without-dots)`. -/
def get_uniquified_filename (roots : Finset String) (filename : String) (ts : Nat) :
    String × String :=
  (candidateRoot (uniquifiedBase filename ts) (chosen_suffix roots filename ts),
   stripDots (splitext filename).2)

/-- Source `LogseqImageFilenameTransformer.assign_uniquified_filename`:
additionally records the returned root in the claimed set. -/
def assign_uniquified_filename (roots : Finset String) (filename : String) (ts : Nat) :
    (String × String) × Finset String :=
  let re := get_uniquified_filename roots filename ts
  (re, insert re.1 roots)

/-- Source `LogseqImageFilenameTransformer.__init__`: the claimed roots seeded
from pre-existing filenames, extensions stripped. -/
def initial_filename_roots (existing_filenames : List String) : Finset String :=
  (existing_filenames.map (fun fn => (splitext (basename fn)).1)).toFinset

/-- The inputs of the analysis phase for one document: its path, its raw text,
and the tree the external parser produced for that text. -/
structure DocInput where
  filepath : String := ""
  md_source : String := ""
  tree : MdElement := MdElement.leaf

/-- The external capabilities and configuration the plan builder consumes:
the `--url_substring_filters` list (empty meaning "no filters configured",
covering Python's `None` and `[]`, both falsy) and the original-filename
decoder (`urllib.parse.urlparse(url).path`, percent-decoded, basename), an
external stdlib collaborator. -/
structure PlanEnv where
  url_substring_filters : List String := []
  originalFilename : String → String := fun _ => ""

/-- Source `ImageUrlReplacementPlan._check_passes_filters`: true when no
filters are configured, else true iff the URL contains at least one filter as
a literal substring. -/
def check_passes_filters (env : PlanEnv) (url : String) : Bool :=
  if env.url_substring_filters.isEmpty then true
  else env.url_substring_filters.any (fun f => containsSub url f)

/-- A fresh `ImageUrlRecord` as created at first sight of a URL during
analysis (source `_get_image_url_occurrences`, record-creation branch). -/
def mkImageUrlRecord (env : PlanEnv) (url : String) : ImageUrlRecord :=
  { url := url
    passes_filters := check_passes_filters env url
    original_filename := env.originalFilename url }

/-- The `FileOccurrenceRecord` appended for `url` in document `d`: the image
count from the parsed tree and the unclamped difference
`textual_count - num_image_elements`. -/
def mkFileOccurrence (d : DocInput) (url : String) : FileOccurrenceRecord :=
  { filepath := d.filepath
    num_image_elements := get_image_url_counts d.tree url
    num_extra_textual_occurrences :=
      (get_textual_counts d.md_source url : Int) - (get_image_url_counts d.tree url : Int) }

/-- The URL record store `image_url_records`: a Python dict from URL to
record, modelled as an insertion-ordered association list. -/
abbrev Store : Type :=
  List (String × ImageUrlRecord)

/-- Dict key lookup on the store. -/
def Store.lookup (st : Store) (url : String) : Option ImageUrlRecord :=
  ((List.find? (fun e => e.1 = url) st).map (fun e => e.2))

/-- The occurrence list of `url`'s record, `[]` when no record exists yet. -/
def Store.occList (st : Store) (url : String) : List FileOccurrenceRecord :=
  match Store.lookup st url with
  | some r => r.file_occurrences
  | none => []

/-- The key list of the store, in insertion order. -/
def Store.keys (st : Store) : List String :=
  st.map (fun e => e.1)

/-- Appends this document's occurrence record to a URL record
(`self.image_url_records[url].file_occurrences.append(...)`). -/
def appendOccurrence (d : DocInput) (url : String) (r : ImageUrlRecord) : ImageUrlRecord :=
  { r with file_occurrences := r.file_occurrences ++ [mkFileOccurrence d url] }

/-- The per-URL step of the analysis loop body: create the record at first
sight of the URL, then append the occurrence record for this document (the
dict update is a map over the association list touching the entry with this
URL's key). -/
def addUrlOccurrence (env : PlanEnv) (d : DocInput) (st : Store) (url : String) : Store :=
  (if (Store.lookup st url).isSome then st else st ++ [(url, mkImageUrlRecord env url)]).map
    (fun e => if e.1 = url then (e.1, appendOccurrence d url e.2) else e)

/-- The per-document pass of source `_get_image_url_occurrences`: iterate the
URLs discovered in this document (`Counter` key order) through the loop
body. -/
def analyzeDocument (env : PlanEnv) (st : Store) (d : DocInput) : Store :=
  (image_url_keys d.tree).foldl (addUrlOccurrence env d) st

/-- Source `ImageUrlReplacementPlan._get_image_url_occurrences`: the analysis
phase over the whole corpus, starting from the empty store. -/
def get_image_url_occurrences (env : PlanEnv) (docs : List DocInput) : Store :=
  docs.foldl (analyzeDocument env) []

/-- Models `os.path.join` for the inputs this program produces (a directory
string and a relative filename). -/
def joinPath (dir name : String) : String :=
  if dir = "" then name
  else if dir.endsWith "/" then dir ++ name else dir ++ "/" ++ name

/-- The outcome of the external fetch capability for one URL
(`requests.get`): the status code and the payload bytes. -/
structure FetchResult where
  status_code : Int := 200
  content : List Nat := []

/-- The external collaborators consumed by one `download` call: the fetch
outcome and the byte sniffer's classification of the payload
(`imghdr.what(None, h=content)`). -/
structure DownloadEnv where
  fetch : FetchResult := {}
  sniffed : Option String := none

/-- The `ValueError`s raised at the top of source `ImageUrlRecord.download`. -/
inductive DownloadError where
  | emptyLocalDir
  | noLocalBasename
deriving DecidableEq

/-- Source `ImageUrlRecord.download`: returns the updated record and the list
of filesystem writes (destination path, bytes) performed.  A non-200 status
aborts, leaving the record unchanged; with no known extension the payload is
sniffed, a failed sniff aborts, `'jpeg'` is normalized to `'jpg'`, and only a
completed write sets `download_successful`. -/
def ImageUrlRecord.download (env : DownloadEnv) (local_dir : String) (r : ImageUrlRecord) :
    Except DownloadError (ImageUrlRecord × List (String × List Nat)) :=
  if local_dir = "" then Except.error DownloadError.emptyLocalDir
  else if r.local_basename = "" then Except.error DownloadError.noLocalBasename
  else if r.local_ext ≠ "" then
    if env.fetch.status_code ≠ 200 then Except.ok (r, [])
    else
      let r' := { r with download_successful := true }
      Except.ok (r', [(joinPath local_dir (ImageUrlRecord.local_filename r), env.fetch.content)])
  else
    if env.fetch.status_code ≠ 200 then Except.ok (r, [])
    else
      match env.sniffed with
      | none => Except.ok (r, [])
      | some ext =>
        let r' := { r with
          local_ext := if ext = "jpeg" then "jpg" else ext
          download_successful := true }
        Except.ok (r', [(joinPath local_dir (ImageUrlRecord.local_filename r'), env.fetch.content)])

/-- The in-file substitution of source `execute`: replaces every match of
`\(\s*URL\s*\)` by the parenthesized local path, scanning left to right as
`re.sub` does.  `fuel` as in `countUrlDestMatches`. -/
def replaceUrlDestMatches (url repl : List Char) : Nat → List Char → List Char
  | 0, s => s
  | fuel + 1, s =>
    match matchUrlDest url s with
    | some r => repl ++ replaceUrlDestMatches url repl fuel r
    | none =>
      match s with
      | [] => []
      | c :: rest => c :: replaceUrlDestMatches url repl fuel rest

/-- The replacement text and substitution for one URL in one document:
`re.sub(build_url_dest_regex(img.url), f'({join(markdown_dest_dir, img.local_filename())})', md_source)`. -/
def substituteUrl (markdown_dest_dir : String) (img : ImageUrlRecord) (md_source : String) :
    String :=
  let repl := "(" ++ joinPath markdown_dest_dir (ImageUrlRecord.local_filename img) ++ ")"
  ⟨replaceUrlDestMatches img.url.data repl.data md_source.data.length md_source.data⟩

/-- The body of the per-URL loop in source `execute` (its lines 306-311), for
one (URL record, file occurrence) pair: when the download succeeded and the
occurrence is not flagged, substitute and set `replace_successful`. -/
def executeUrlInFile (markdown_dest_dir : String) (img : ImageUrlRecord)
    (fo : FileOccurrenceRecord) (md_source : String) : String × FileOccurrenceRecord :=
  if img.download_successful && !(FileOccurrenceRecord.replacement_not_safe fo) then
    (substituteUrl markdown_dest_dir img md_source, { fo with replace_successful := true })
  else (md_source, fo)

/-- The order in which source `execute` processes the URL records of one
document: `image_url_records.sort(reverse=True, key=lambda x: len(x.url))`,
a stable sort by descending URL length. -/
def executionOrder (recs : List ImageUrlRecord) : List ImageUrlRecord :=
  recs.mergeSort (fun a b => decide (b.url.length ≤ a.url.length))

/-- The per-document rewrite phase of source `execute`: fold the per-URL loop
body over the records in execution order, threading the document text and
collecting each pair's updated occurrence record.  `none` models the
attribute error the source would raise if `get_file_occurrence` returned
`None` for some record. -/
def executeFile (markdown_dest_dir : String) (filepath : String)
    (recs : List ImageUrlRecord) (md_source : String) :
    Option (String × List FileOccurrenceRecord) :=
  (executionOrder recs).foldl
    (fun acc img =>
      match acc with
      | none => none
      | some (src, fos) =>
        match ImageUrlRecord.get_file_occurrence img filepath with
        | none => none
        | some fo =>
          let (src', fo') := executeUrlInFile markdown_dest_dir img fo src
          some (src', fos ++ [fo']))
    (some (md_source, []))

/-- Source `ImageUrlReplacementPlan._iterate_image_url_records` (with the
default `filtered=True`): the records in ascending URL order, restricted to
those passing the filters. -/
def iterate_image_url_records (st : Store) : List ImageUrlRecord :=
  ((st.map (fun e => e.2)).mergeSort (fun a b => decide (a.url ≤ b.url))).filter
    (fun r => r.passes_filters)

/-- Source `ImageUrlReplacementPlan._get_image_url_records_by_file`: one
`(filepath, record)` pair per file occurrence of each filtered-in record. -/
def recordFilePairs (st : Store) : List (String × ImageUrlRecord) :=
  (iterate_image_url_records st).flatMap
    (fun r => r.file_occurrences.map (fun fo => (fo.filepath, r)))

/-- Source `ImageUrlReplacementPlan._get_image_url_records_by_file`: group the
pairs by filepath (`defaultdict` in insertion order), sort each group by URL,
and return the groups sorted by filepath. -/
def get_image_url_records_by_file (st : Store) : List (String × List ImageUrlRecord) :=
  let pairs := recordFilePairs st
  let keys := firstDedup (pairs.map (fun p => p.1))
  let groups := keys.map (fun fp =>
    (fp, ((pairs.filter (fun p => p.1 = fp)).map (fun p => p.2)).mergeSort
      (fun a b => decide (a.url ≤ b.url))))
  groups.mergeSort (fun a b => decide (a.1 ≤ b.1))

/-- The observable side effects of one program run, for the frame claims:
file reads, directory listing, network fetches, file writes and printing. -/
inductive Effect where
  | readFile (path : String)
  | listDir (path : String)
  | fetchUrl (url : String)
  | writeFile (path : String)
  | printOut (tag : String)
deriving DecidableEq

/-- The command-line configuration consumed by source `main`. -/
structure MainConfig where
  md_filepaths : List String := []
  image_dest_dir : String := ""
  markdown_dest_dir : String := ""
  plan_summary_path : String := "/tmp/markdown_image_download_plan_summary.md"
  execution_summary_path : String := "/tmp/markdown_image_download_execution_summary.md"
  dry_run : Bool := false

/-- The effects of building the plan (`ImageUrlReplacementPlan.__init__`):
read every input document, and list the destination directory to seed the
filename uniquifier.  Read-only. -/
def planBuildEffects (cfg : MainConfig) : List Effect :=
  (cfg.md_filepaths.map (fun p => Effect.readFile p)) ++ [Effect.listDir cfg.image_dest_dir]

/-- The effects of source `execute` over a populated store: phase 1 fetches
every filtered-in record's URL (writing the image file when the download
succeeds, as reported by `wrote`), phase 2 reads and rewrites each grouped
document. -/
def executeEffects (cfg : MainConfig) (st : Store) (wrote : String → Bool) : List Effect :=
  ((iterate_image_url_records st).flatMap (fun r =>
    [Effect.fetchUrl r.url] ++
      (if wrote r.url then
        [Effect.writeFile (joinPath cfg.image_dest_dir (ImageUrlRecord.local_filename r))]
      else []))) ++
  ((get_image_url_records_by_file st).flatMap (fun g =>
    [Effect.readFile g.1, Effect.writeFile g.1]))

/-- The effect trace of source `main` after the plan is built: write the plan
summary when a path is configured, then either print the plan (dry run) or
execute, print the execution summary and write it when a path is
configured.  Report rendering is pure string building and contributes no
effects. -/
def mainEffects (cfg : MainConfig) (st : Store) (wrote : String → Bool) : List Effect :=
  planBuildEffects cfg ++
  (if cfg.plan_summary_path ≠ "" then [Effect.writeFile cfg.plan_summary_path] else []) ++
  (if cfg.dry_run then [Effect.printOut "plan_summary"]
   else
    executeEffects cfg st wrote ++ [Effect.printOut "execution_summary"] ++
      (if cfg.execution_summary_path ≠ "" then [Effect.writeFile cfg.execution_summary_path]
       else []))

/-- The spec's notion "begins with an HTTP(S) scheme", written from the
spec's words for comparison with the source's `startswith('http')` check. -/
def beginsWithHttpScheme (s : String) : Bool :=
  startswith s "http://" || startswith s "https://"

/-- `a` occurs in `b` as a proper substring: `b` contains `a` contiguously
and differs from it. -/
def properSubstringOf (a b : String) : Prop :=
  a.data ≠ b.data ∧ ∃ p q, b.data = p ++ a.data ++ q

/-- A concrete one-record store used to instantiate the grouped-lookup
theorem. -/
def c10ExampleRecord : ImageUrlRecord :=
  { url := "http://u", passes_filters := true, file_occurrences := [{ filepath := "f.md" }] }

/-- The store holding `c10ExampleRecord`. -/
def c10ExampleStore : Store :=
  [("http://u", c10ExampleRecord)]

/-- A concrete one-document corpus used to instantiate the analysis-phase
theorem. -/
def c4ExampleDoc : DocInput :=
  { filepath := "f.md", md_source := "![a](http://u)", tree := MdElement.image "http://u" }

/-! ### Decimal rendering is injective

`str(int(time.time()))` and the numeric suffixes are rendered with `Nat.repr`;
the uniquifier's termination rests on distinct numbers rendering to distinct
strings. -/

theorem toDigitsCore_eq_digits (fuel n : Nat) (acc : List Char)
    (h1 : 0 < n) (h2 : n < fuel) :
    Nat.toDigitsCore 10 fuel n acc = ((Nat.digits 10 n).map Nat.digitChar).reverse ++ acc := by
  induction fuel generalizing n acc with
  | zero => omega
  | succ f ih =>
    rw [Nat.toDigitsCore]
    by_cases hdiv : n / 10 = 0
    · simp only [hdiv, if_true]
      rw [Nat.digits_def' (by norm_num : (1 : ℕ) < 10) h1, hdiv, Nat.digits_zero]
      simp
    · simp only [hdiv, if_false]
      have hpos : 0 < n / 10 := Nat.pos_of_ne_zero hdiv
      have hlt : n / 10 < f := by
        have := Nat.div_lt_self h1 (by norm_num : (1 : ℕ) < 10)
        omega
      rw [ih (n / 10) _ hpos hlt]
      rw [Nat.digits_def' (by norm_num : (1 : ℕ) < 10) h1]
      simp

theorem toDigits_eq_of_pos (n : Nat) (h : 0 < n) :
    Nat.toDigits 10 n = ((Nat.digits 10 n).map Nat.digitChar).reverse := by
  have := toDigitsCore_eq_digits (n + 1) n [] h (by omega)
  simpa [Nat.toDigits] using this

theorem digitChar_injOn : ∀ a < 10, ∀ b < 10, Nat.digitChar a = Nat.digitChar b → a = b := by
  decide

theorem map_digitChar_inj (l1 : List Nat) : ∀ (l2 : List Nat),
    (∀ d ∈ l1, d < 10) → (∀ d ∈ l2, d < 10) →
    l1.map Nat.digitChar = l2.map Nat.digitChar → l1 = l2 := by
  induction l1 with
  | nil =>
    intro l2 _ _ h
    cases l2 with
    | nil => rfl
    | cons b l2 => simp at h
  | cons a l1 ih =>
    intro l2 h1 h2 h
    cases l2 with
    | nil => simp at h
    | cons b l2 =>
      simp only [List.map_cons, List.cons.injEq] at h
      have hab : a = b :=
        digitChar_injOn a (h1 a (List.mem_cons_self a l1)) b (h2 b (List.mem_cons_self b l2)) h.1
      have : l1 = l2 := ih l2 (fun d hd => h1 d (List.mem_cons_of_mem _ hd))
        (fun d hd => h2 d (List.mem_cons_of_mem _ hd)) h.2
      rw [hab, this]

theorem toDigits_ten_zero : Nat.toDigits 10 0 = ['0'] := by decide

theorem toDigits_singleton_zero_of_pos (n : Nat) (hn : 0 < n)
    (h : Nat.toDigits 10 n = ['0']) : False := by
  rw [toDigits_eq_of_pos n hn] at h
  have hmap : (Nat.digits 10 n).map Nat.digitChar = ['0'] := by
    have := congrArg List.reverse h
    simpa using this
  have hne : Nat.digits 10 n ≠ [] := Nat.digits_ne_nil_iff_ne_zero.mpr (by omega)
  cases hds : Nat.digits 10 n with
  | nil => exact hne hds
  | cons d tl =>
    rw [hds] at hmap
    cases tl with
    | cons e tl2 => simp at hmap
    | nil =>
      simp only [List.map_cons, List.map_nil, List.cons.injEq, and_true] at hmap
      have hd10 : d < 10 :=
        Nat.digits_lt_base (by norm_num) (by rw [hds]; exact List.mem_cons_self d [])
      have hd0 : d = 0 := digitChar_injOn d hd10 0 (by norm_num) hmap
      have hlast := Nat.getLast_digit_ne_zero 10 (m := n) (by omega)
      simp only [hds, List.getLast_singleton] at hlast
      exact hlast hd0

theorem nat_repr_injective : Function.Injective Nat.repr := by
  intro m n h
  have hd : Nat.toDigits 10 m = Nat.toDigits 10 n := by
    have := congrArg String.data h
    simpa [Nat.repr, List.asString] using this
  rcases Nat.eq_zero_or_pos m with hm | hm <;> rcases Nat.eq_zero_or_pos n with hn | hn
  · omega
  · exact absurd (toDigits_singleton_zero_of_pos n hn (by rw [← hd, hm]; decide)) id
  · exact absurd (toDigits_singleton_zero_of_pos m hm (by rw [hd, hn]; decide)) id
  · rw [toDigits_eq_of_pos m hm, toDigits_eq_of_pos n hn] at hd
    have h2 : (Nat.digits 10 m).map Nat.digitChar = (Nat.digits 10 n).map Nat.digitChar := by
      have := congrArg List.reverse hd
      simpa using this
    have h3 : Nat.digits 10 m = Nat.digits 10 n :=
      map_digitChar_inj _ _ (fun d hd => Nat.digits_lt_base (by norm_num) hd)
        (fun d hd => Nat.digits_lt_base (by norm_num) hd) h2
    have h4 := congrArg (Nat.ofDigits 10) h3
    rw [Nat.ofDigits_digits, Nat.ofDigits_digits] at h4
    exact_mod_cast h4

theorem candidateRoot_injective (base : String) : Function.Injective (candidateRoot base) := by
  intro k1 k2 h
  have hd := congrArg String.data h
  simp only [candidateRoot, String.data_append, List.append_assoc] at hd
  have hd' : (Nat.repr k1).data = (Nat.repr k2).data :=
    List.append_cancel_left (List.append_cancel_left hd)
  exact nat_repr_injective (String.ext hd')

theorem exists_fresh_candidate (roots : Finset String) (base : String) :
    ∃ k, k < roots.card + 1 ∧ candidateRoot base k ∉ roots := by
  by_contra hc
  push_neg at hc
  have hsub : (Finset.range (roots.card + 1)).image (candidateRoot base) ⊆ roots := by
    intro x hx
    rw [Finset.mem_image] at hx
    obtain ⟨k, hk, rfl⟩ := hx
    exact hc k (Finset.mem_range.mp hk)
  have hcard := Finset.card_le_card hsub
  rw [Finset.card_image_of_injective _ (candidateRoot_injective base),
    Finset.card_range] at hcard
  omega

/-- The chosen suffix is exactly the `while True` loop's result: its candidate
root is free, and every smaller suffix's candidate root is claimed. -/
theorem chosen_suffix_spec (roots : Finset String) (filename : String) (ts : Nat) :
    candidateRoot (uniquifiedBase filename ts) (chosen_suffix roots filename ts) ∉ roots ∧
    ∀ j < chosen_suffix roots filename ts,
      candidateRoot (uniquifiedBase filename ts) j ∈ roots := by
  have hex := exists_fresh_candidate roots (uniquifiedBase filename ts)
  unfold chosen_suffix
  rw [dif_pos hex]
  refine ⟨(Nat.find_spec hex).2, ?_⟩
  intro j hj
  have hbound : j < roots.card + 1 := by
    have := (Nat.find_spec hex).1
    omega
  have := Nat.find_min hex hj
  by_contra hmem
  exact this ⟨hbound, hmem⟩

/-- Claim C6: for every input filename and finite claimed-root set the
uniquifier's assign operation terminates and succeeds: the suffix search
starting at 0 returns the first candidate root not in the claimed set (every
smaller suffix's candidate is claimed), the returned root is added to the
claimed set, and a subsequent call with the same filename in the same run
returns a different root. -/
theorem c6_assign_terminates_and_succeeds (roots : Finset String) (filename : String)
    (ts ts' : Nat) :
    (get_uniquified_filename roots filename ts).1 ∉ roots ∧
    (∀ j < chosen_suffix roots filename ts,
      candidateRoot (uniquifiedBase filename ts) j ∈ roots) ∧
    (assign_uniquified_filename roots filename ts).2 =
      insert (get_uniquified_filename roots filename ts).1 roots ∧
    (get_uniquified_filename (assign_uniquified_filename roots filename ts).2 filename ts').1 ≠
      (get_uniquified_filename roots filename ts).1 := by
  obtain ⟨hfree, hleast⟩ := chosen_suffix_spec roots filename ts
  refine ⟨hfree, hleast, rfl, ?_⟩
  intro heq
  have h3 : (get_uniquified_filename
      (insert (get_uniquified_filename roots filename ts).1 roots) filename ts').1 ∉
      insert (get_uniquified_filename roots filename ts).1 roots :=
    (chosen_suffix_spec
      (insert (get_uniquified_filename roots filename ts).1 roots) filename ts').1
  rw [show (assign_uniquified_filename roots filename ts).2 =
    insert (get_uniquified_filename roots filename ts).1 roots from rfl] at heq
  rw [heq] at h3
  exact h3 (Finset.mem_insert_self _ _)

/-- Claim C5 (code bug): the source computes `root.replace(' ', '_')` but
discards the result, so the space of `"a b.png"` survives into the returned
root, contrary to the method's own docstring ("Spaces are replaced by `'_'`
in the filename"). -/
theorem c5_space_not_replaced :
    (get_uniquified_filename ∅ "a b.png" 0).1 = "a b_0_0" ∧ ' ' ∈ "a b_0_0".data := by
  have hs := chosen_suffix_spec ∅ "a b.png" 0
  have h0 : chosen_suffix ∅ "a b.png" 0 = 0 := by
    by_contra hne
    have := hs.2 0 (Nat.pos_of_ne_zero hne)
    simp at this
  have h1 : (get_uniquified_filename ∅ "a b.png" 0).1 =
      candidateRoot (uniquifiedBase "a b.png" 0) 0 := by
    unfold get_uniquified_filename
    rw [h0]
  rw [h1]
  exact ⟨by decide, by decide⟩

/-- Claim C1 counterexample: a pair whose `num_extra_textual_occurrences` is
`-1` (nonzero) with a successful download is replaced by the executor's loop
body, so "replaced iff downloaded and extra occurrences equal 0" fails: the
source tests `replacement_unsafe`, i.e. `extra > 0`, not `extra == 0`. -/
theorem c1_counterexample :
    ((executeUrlInFile "assets"
        { url := "http://u", download_successful := true }
        { filepath := "f.md", num_extra_textual_occurrences := -1 }
        "x").2.replace_successful = true) ∧
    (({ filepath := "f.md", num_extra_textual_occurrences := -1 } :
        FileOccurrenceRecord).num_extra_textual_occurrences ≠ 0) := by
  constructor
  · rfl
  · decide

/-- Claim C1 (amended): for a pair not yet marked replaced, the executor's
loop body sets `replace_successful` iff the download succeeded and
`num_extra_textual_occurrences ≤ 0`: a positive value is never replaced, but
a negative value counts as safe and is replaced. -/
theorem c1_replace_iff (markdown_dest_dir : String) (img : ImageUrlRecord)
    (fo : FileOccurrenceRecord) (md_source : String)
    (h : fo.replace_successful = false) :
    ((executeUrlInFile markdown_dest_dir img fo md_source).2.replace_successful = true) ↔
      (img.download_successful = true ∧ fo.num_extra_textual_occurrences ≤ 0) := by
  unfold executeUrlInFile FileOccurrenceRecord.replacement_not_safe
  by_cases hd : img.download_successful = true <;>
    by_cases hx : fo.num_extra_textual_occurrences ≤ 0 <;>
      simp [hd, hx, h]

/-- Witness for C1's amended theorem at a concrete pair. -/
theorem c1_replace_iff_witness :
    (({ filepath := "f.md" } : FileOccurrenceRecord).replace_successful = false) ∧
    (((executeUrlInFile "assets" { url := "http://u", download_successful := true }
        { filepath := "f.md" } "x").2.replace_successful = true) ↔
      (({ url := "http://u", download_successful := true } :
          ImageUrlRecord).download_successful = true ∧
        ({ filepath := "f.md" } : FileOccurrenceRecord).num_extra_textual_occurrences ≤ 0)) :=
  ⟨rfl, c1_replace_iff "assets" _ _ "x" rfl⟩

/-- Claim C2 (amended): the analyzer stores the unclamped difference, so the
value is nonnegative exactly when the structural image count does not exceed
the raw textual match count; nothing clamps or checks it. -/
theorem c2_extra_nonneg_iff (d : DocInput) (url : String) :
    0 ≤ (mkFileOccurrence d url).num_extra_textual_occurrences ↔
      get_image_url_counts d.tree url ≤ get_textual_counts d.md_source url := by
  unfold mkFileOccurrence
  simp only []
  omega

/-- Claim C2 counterexample: a destination containing an escaped parenthesis.
The external parser reports the image destination `http://x/a(b` for the text
`![a](http://x/a\(b)`, but the literal pattern `\(\s*http://x/a(b\s*\)` never
matches that text, so the image count (1) exceeds the textual count (0) and
the stored difference is `-1`. -/
theorem c2_counterexample :
    (mkFileOccurrence
        { filepath := "f.md", md_source := "![a](http://x/a\\(b)",
          tree := MdElement.image "http://x/a(b" }
        "http://x/a(b").num_extra_textual_occurrences = -1 ∧
    get_textual_counts "![a](http://x/a\\(b)" "http://x/a(b" <
      get_image_url_counts (MdElement.image "http://x/a(b") "http://x/a(b" := by
  constructor
  · simp only [mkFileOccurrence, get_image_url_counts, filtered_image_dests,
      collect_image_elements]
    decide
  · simp only [get_image_url_counts, filtered_image_dests, collect_image_elements]
    decide

/-- Claim C7 counterexample: the source keeps any destination with the
literal prefix `http`; the destination `httpx` is counted although it does
not begin with an HTTP(S) scheme. -/
theorem c7_counterexample :
    get_image_url_counts (MdElement.image "httpx") "httpx" = 1 ∧
    beginsWithHttpScheme "httpx" = false := by
  constructor
  · simp only [get_image_url_counts, filtered_image_dests, collect_image_elements]
    decide
  · decide

theorem isPrefixOf_trans : ∀ (a b c : List Char),
    a.isPrefixOf b = true → b.isPrefixOf c = true → a.isPrefixOf c = true := by
  intro a
  induction a with
  | nil => intro b c _ _; simp [List.isPrefixOf]
  | cons x xs ih =>
    intro b c h1 h2
    cases b with
    | nil => simp [List.isPrefixOf] at h1
    | cons y bs =>
      simp only [List.isPrefixOf, Bool.and_eq_true, beq_iff_eq] at h1
      obtain ⟨rfl, h1'⟩ := h1
      cases c with
      | nil => simp [List.isPrefixOf] at h2
      | cons z cs =>
        simp only [List.isPrefixOf, Bool.and_eq_true, beq_iff_eq] at h2
        obtain ⟨rfl, h2'⟩ := h2
        simp only [List.isPrefixOf, beq_self_eq_true, Bool.true_and]
        exact ih bs cs h1' h2'

theorem count_filter_eq (p : String → Bool) (a : String) (l : List String) :
    (l.filter p).count a = if p a then l.count a else 0 := by
  by_cases h : p a
  · rw [if_pos h, List.count_filter h]
  · rw [if_neg h, List.count_eq_zero]
    intro hmem
    exact h (List.of_mem_filter hmem)

/-- Claim C7 (amended): an image node's destination is counted iff it starts
with the literal string `http` (`startswith('http')`); any other destination
is discarded and contributes to no counts.  Destinations beginning with an
actual HTTP(S) scheme all pass this check, but so do others (see the
counterexample). -/
theorem c7_http_prefix_filter (doc : MdElement) (url : String) :
    get_image_url_counts doc url =
      (if startswith url "http" then (collect_image_elements doc).count url else 0) ∧
    (beginsWithHttpScheme url = true → startswith url "http" = true) := by
  constructor
  · unfold get_image_url_counts filtered_image_dests
    exact count_filter_eq _ url _
  · intro h
    unfold beginsWithHttpScheme at h
    unfold startswith at h ⊢
    rcases Bool.or_eq_true_iff.mp h with h' | h'
    · exact isPrefixOf_trans _ _ _ (by decide) h'
    · exact isPrefixOf_trans _ _ _ (by decide) h'

theorem executionOrder_pairwise (recs : List ImageUrlRecord) :
    (executionOrder recs).Pairwise (fun a b => b.url.length ≤ a.url.length) := by
  have h : (recs.mergeSort (fun a b => decide (b.url.length ≤ a.url.length))).Pairwise
      (fun a b => decide (b.url.length ≤ a.url.length)) :=
    List.sorted_mergeSort
      (fun a b c h1 h2 => by
        simp only [decide_eq_true_eq] at h1 h2 ⊢
        omega)
      (fun a b => by
        simp only [Bool.or_eq_true, decide_eq_true_eq]
        omega)
      recs
  exact h.imp (fun hab => by simpa using hab)

theorem properSubstringOf_length_lt (a b : String) (h : properSubstringOf a b) :
    a.length < b.length := by
  obtain ⟨hne, p, q, hb⟩ := h
  have hlen : b.data.length = p.length + a.data.length + q.length := by
    rw [hb]
    simp [List.length_append]
    omega
  rcases Nat.eq_zero_or_pos (p.length + q.length) with h0 | hpos
  · have hp : p = [] := List.length_eq_zero.mp (by omega)
    have hq : q = [] := List.length_eq_zero.mp (by omega)
    rw [hp, hq] at hb
    simp at hb
    exact absurd hb.symm hne
  · show a.data.length < b.data.length
    omega

/-- Claim C3: the rewrite phase of `execute` sorts each document's URL
records by descending URL string length before any substitution, so whenever
one record precedes another in the processed order the later URL is no
longer; in particular a URL that is a proper substring of another URL (hence
strictly shorter) is never substituted before it. -/
theorem c3_descending_substitution_order (recs : List ImageUrlRecord) :
    (executionOrder recs).Pairwise (fun a b => b.url.length ≤ a.url.length) ∧
    (∀ l1 a l2 b l3, executionOrder recs = l1 ++ a :: (l2 ++ b :: l3) →
      b.url.length ≤ a.url.length ∧ ¬ properSubstringOf a.url b.url) := by
  have hp := executionOrder_pairwise recs
  refine ⟨hp, ?_⟩
  intro l1 a l2 b l3 heq
  rw [heq] at hp
  have h1 := (List.pairwise_append.mp hp).2.1
  rw [List.pairwise_cons] at h1
  have hab : b.url.length ≤ a.url.length := h1.1 b (by simp)
  refine ⟨hab, ?_⟩
  intro hsub
  have := properSubstringOf_length_lt _ _ hsub
  omega

/-- Witness for C3 at a concrete two-record input whose URLs are `"ab"` and
its proper substring `"a"`. -/
theorem c3_witness :
    (({ url := "a" } : ImageUrlRecord).url.length ≤
      ({ url := "ab" } : ImageUrlRecord).url.length) ∧
    ¬ properSubstringOf ({ url := "ab" } : ImageUrlRecord).url
        ({ url := "a" } : ImageUrlRecord).url := by
  have hsorted : executionOrder [({ url := "ab" } : ImageUrlRecord), { url := "a" }] =
      [({ url := "ab" } : ImageUrlRecord), { url := "a" }] := by
    unfold executionOrder
    apply List.mergeSort_of_sorted
    refine List.Pairwise.cons ?_ (List.Pairwise.cons ?_ List.Pairwise.nil)
    · intro a' ha'
      simp only [List.mem_singleton] at ha'
      subst ha'
      decide
    · intro a' ha'
      simp at ha'
  exact (c3_descending_substitution_order [{ url := "ab" }, { url := "a" }]).2
    [] { url := "ab" } [] { url := "a" } [] (by simpa using hsorted)

/-- Claim C10: every record listed under a filepath by the per-file grouping
has a file-occurrence record for that filepath, so `get_file_occurrence`
returns `some` for every (filepath, record) pair the executor and the report
builders dereference. -/
theorem c10_grouped_occurrence_total (st : Store) (fp : String)
    (recs : List ImageUrlRecord)
    (hmem : (fp, recs) ∈ get_image_url_records_by_file st)
    (r : ImageUrlRecord) (hr : r ∈ recs) :
    (ImageUrlRecord.get_file_occurrence r fp).isSome = true := by
  unfold get_image_url_records_by_file at hmem
  rw [List.mem_mergeSort] at hmem
  obtain ⟨fp', hfp', heq⟩ := List.mem_map.mp hmem
  cases heq
  rw [List.mem_mergeSort] at hr
  obtain ⟨p, hpmem, hp2⟩ := List.mem_map.mp hr
  have hpf := List.mem_filter.mp hpmem
  obtain ⟨rec', hrec', hp'⟩ := List.mem_flatMap.mp hpf.1
  obtain ⟨fo, hfo, hfoeq⟩ := List.mem_map.mp hp'
  have hkey : p.1 = fp := by
    have := hpf.2
    simpa using this
  unfold ImageUrlRecord.get_file_occurrence
  rw [List.find?_isSome]
  refine ⟨fo, ?_, ?_⟩
  · have : rec' = r := by
      rw [← hfoeq] at hp2
      exact hp2
    rw [← this]
    exact hfo
  · have h1 : fo.filepath = p.1 := by
      rw [← hfoeq]
    simp [h1, hkey]

/-- Witness for C10 at the one-record store. -/
theorem c10_witness :
    (ImageUrlRecord.get_file_occurrence c10ExampleRecord "f.md").isSome = true := by
  have hgroups : get_image_url_records_by_file c10ExampleStore = [("f.md", [c10ExampleRecord])] := by
    unfold get_image_url_records_by_file recordFilePairs iterate_image_url_records
      c10ExampleStore c10ExampleRecord firstDedup
    simp [firstDedupAux, List.mergeSort_singleton]
  exact c10_grouped_occurrence_total c10ExampleStore "f.md" [c10ExampleRecord]
    (by rw [hgroups]; exact List.mem_singleton_self _) c10ExampleRecord
    (List.mem_singleton_self _)

/-- Claim C8: for a record whose extension is unknown at download time and
whose fetch returned status 200: a failed sniff aborts the download with the
record unchanged (flag still false, extension still empty) and nothing
written; a successful sniff sets the extension (`jpeg` normalized to `jpg`),
writes the buffered bytes under the final name, and sets
`download_successful`. -/
theorem c8_unknown_extension_download (env : DownloadEnv) (local_dir : String)
    (r : ImageUrlRecord) (hdir : local_dir ≠ "") (hbase : r.local_basename ≠ "")
    (hext : r.local_ext = "") (hstatus : env.fetch.status_code = 200) :
    (env.sniffed = none → ImageUrlRecord.download env local_dir r = Except.ok (r, [])) ∧
    (∀ t, env.sniffed = some t →
      ImageUrlRecord.download env local_dir r =
        Except.ok
          ({ r with local_ext := if t = "jpeg" then "jpg" else t, download_successful := true },
           [(joinPath local_dir
               (ImageUrlRecord.local_filename
                 { r with local_ext := if t = "jpeg" then "jpg" else t,
                          download_successful := true }),
             env.fetch.content)])) := by
  unfold ImageUrlRecord.download
  rw [if_neg hdir, if_neg hbase, if_neg (not_not_intro hext), if_neg (not_not_intro hstatus)]
  constructor
  · intro hs
    rw [hs]
  · intro t hs
    rw [hs]

/-- Witness for C8 at a concrete environment whose sniffer reports `jpeg`. -/
theorem c8_witness :
    (("imgs" : String) ≠ "") ∧
    (ImageUrlRecord.download
        { fetch := { status_code := 200, content := [7] }, sniffed := some "jpeg" } "imgs"
        { url := "http://u", local_basename := "b" } =
      Except.ok
        ({ url := "http://u", local_basename := "b",
           local_ext := if "jpeg" = "jpeg" then "jpg" else "jpeg",
           download_successful := true },
         [(joinPath "imgs"
             (ImageUrlRecord.local_filename
               { url := "http://u", local_basename := "b",
                 local_ext := if "jpeg" = "jpeg" then "jpg" else "jpeg",
                 download_successful := true }),
           [7])])) :=
  ⟨by decide,
    (c8_unknown_extension_download
      { fetch := { status_code := 200, content := [7] }, sniffed := some "jpeg" } "imgs"
      { url := "http://u", local_basename := "b" }
      (by decide) (by decide) rfl rfl).2 "jpeg" rfl⟩

/-- Claim C9: with the dry-run switch set, the effect trace of `main`
contains no network fetch and writes no file other than the plan report,
which it writes (when a path is configured) and prints, for every plan
content. -/
theorem c9_dry_run_no_mutation (cfg : MainConfig) (st : Store) (wrote : String → Bool)
    (hdry : cfg.dry_run = true) :
    (∀ u, Effect.fetchUrl u ∉ mainEffects cfg st wrote) ∧
    (∀ p, Effect.writeFile p ∈ mainEffects cfg st wrote → p = cfg.plan_summary_path) ∧
    (cfg.plan_summary_path ≠ "" →
      Effect.writeFile cfg.plan_summary_path ∈ mainEffects cfg st wrote) ∧
    Effect.printOut "plan_summary" ∈ mainEffects cfg st wrote := by
  unfold mainEffects planBuildEffects
  by_cases hplan : cfg.plan_summary_path = ""
  · simp [hdry, hplan]
  · simp [hdry, hplan]

/-- Witness for C9 at a concrete dry-run configuration. -/
theorem c9_witness :
    (({ dry_run := true } : MainConfig).dry_run = true) ∧
    ((∀ u, Effect.fetchUrl u ∉ mainEffects { dry_run := true } [] (fun _ => false)) ∧
      (∀ p, Effect.writeFile p ∈ mainEffects { dry_run := true } [] (fun _ => false) →
        p = ({ dry_run := true } : MainConfig).plan_summary_path) ∧
      (({ dry_run := true } : MainConfig).plan_summary_path ≠ "" →
        Effect.writeFile ({ dry_run := true } : MainConfig).plan_summary_path ∈
          mainEffects { dry_run := true } [] (fun _ => false)) ∧
      Effect.printOut "plan_summary" ∈ mainEffects { dry_run := true } [] (fun _ => false)) :=
  ⟨rfl, c9_dry_run_no_mutation { dry_run := true } [] (fun _ => false) rfl⟩

theorem firstDedupAux_mem (l : List String) : ∀ (seen : List String) (x : String),
    x ∈ firstDedupAux seen l ↔ x ∈ l ∧ x ∉ seen := by
  induction l with
  | nil => intro seen x; simp [firstDedupAux]
  | cons y ys ih =>
    intro seen x
    by_cases hy : y ∈ seen
    · rw [show firstDedupAux seen (y :: ys) = firstDedupAux seen ys from by
        simp [firstDedupAux, hy]]
      rw [ih]
      constructor
      · rintro ⟨h1, h2⟩
        exact ⟨List.mem_cons_of_mem _ h1, h2⟩
      · rintro ⟨h1, h2⟩
        rcases List.mem_cons.mp h1 with rfl | h1
        · exact absurd hy h2
        · exact ⟨h1, h2⟩
    · rw [show firstDedupAux seen (y :: ys) = y :: firstDedupAux (y :: seen) ys from by
        simp [firstDedupAux, hy]]
      rw [List.mem_cons, ih]
      constructor
      · rintro (rfl | ⟨h1, h2⟩)
        · exact ⟨List.mem_cons_self _ _, hy⟩
        · exact ⟨List.mem_cons_of_mem _ h1, fun hx => h2 (List.mem_cons_of_mem _ hx)⟩
      · rintro ⟨h1, h2⟩
        rcases List.mem_cons.mp h1 with rfl | h1
        · exact Or.inl rfl
        · by_cases hxy : x = y
          · exact Or.inl hxy
          · exact Or.inr ⟨h1, by simp [hxy, h2]⟩

theorem firstDedupAux_nodup (l : List String) : ∀ (seen : List String),
    (firstDedupAux seen l).Nodup := by
  induction l with
  | nil => intro seen; simp [firstDedupAux]
  | cons y ys ih =>
    intro seen
    by_cases hy : y ∈ seen
    · rw [show firstDedupAux seen (y :: ys) = firstDedupAux seen ys from by
        simp [firstDedupAux, hy]]
      exact ih seen
    · rw [show firstDedupAux seen (y :: ys) = y :: firstDedupAux (y :: seen) ys from by
        simp [firstDedupAux, hy]]
      rw [List.nodup_cons]
      refine ⟨fun hmem => ?_, ih (y :: seen)⟩
      have := (firstDedupAux_mem ys (y :: seen) y).mp hmem
      exact this.2 (List.mem_cons_self _ _)

theorem firstDedup_mem (l : List String) (x : String) : x ∈ firstDedup l ↔ x ∈ l := by
  unfold firstDedup
  rw [firstDedupAux_mem]
  simp

theorem firstDedup_nodup (l : List String) : (firstDedup l).Nodup :=
  firstDedupAux_nodup l []

theorem find?_ext {α : Type} (p q : α → Bool) (h : ∀ a, p a = q a) :
    ∀ (l : List α), l.find? p = l.find? q := by
  intro l
  induction l with
  | nil => rfl
  | cons a as ih => rw [List.find?_cons, List.find?_cons, h a, ih]

theorem find?_map_update (d : DocInput) (url u : String) (st : Store) :
    List.find? (fun e => e.1 = u)
      (st.map (fun e => if e.1 = url then (e.1, appendOccurrence d url e.2) else e)) =
    Option.map (fun e : String × ImageUrlRecord =>
        if e.1 = url then (e.1, appendOccurrence d url e.2) else e)
      (List.find? (fun e => e.1 = u) st) := by
  rw [List.find?_map]
  have hcomp : ∀ e : String × ImageUrlRecord,
      ((fun e : String × ImageUrlRecord => decide (e.1 = u)) ∘
        (fun e => if e.1 = url then (e.1, appendOccurrence d url e.2) else e)) e =
        decide (e.1 = u) := by
    intro e
    by_cases he : e.1 = url <;> simp [he]
  rw [find?_ext _ _ hcomp st]

theorem keys_map_update (d : DocInput) (url : String) (s : Store) :
    Store.keys (s.map (fun e => if e.1 = url then (e.1, appendOccurrence d url e.2) else e)) =
      Store.keys s := by
  unfold Store.keys
  rw [List.map_map]
  apply List.map_congr_left
  intro e _
  by_cases he : e.1 = url <;> simp [he]

theorem lookup_isSome_iff (st : Store) (url : String) :
    (Store.lookup st url).isSome = true ↔ url ∈ Store.keys st := by
  unfold Store.lookup Store.keys
  rw [Option.isSome_map']
  rw [List.find?_isSome]
  constructor
  · rintro ⟨e, he, hp⟩
    exact List.mem_map.mpr ⟨e, he, by simpa using hp⟩
  · intro h
    obtain ⟨e, he, hp⟩ := List.mem_map.mp h
    exact ⟨e, he, by simpa using hp⟩

theorem keys_addUrl (env : PlanEnv) (d : DocInput) (st : Store) (url : String) :
    Store.keys (addUrlOccurrence env d st url) =
      if url ∈ Store.keys st then Store.keys st else Store.keys st ++ [url] := by
  unfold addUrlOccurrence
  by_cases hs : (Store.lookup st url).isSome = true
  · rw [if_pos hs, keys_map_update, if_pos ((lookup_isSome_iff st url).mp hs)]
  · rw [if_neg hs, keys_map_update,
      if_neg (fun hmem => hs ((lookup_isSome_iff st url).mpr hmem))]
    unfold Store.keys
    rw [List.map_append]
    rfl

theorem mem_keys_addUrl (env : PlanEnv) (d : DocInput) (st : Store) (url u : String) :
    u ∈ Store.keys (addUrlOccurrence env d st url) ↔ u ∈ Store.keys st ∨ u = url := by
  rw [keys_addUrl]
  by_cases h : url ∈ Store.keys st
  · rw [if_pos h]
    constructor
    · exact Or.inl
    · rintro (hu | rfl)
      · exact hu
      · exact h
  · rw [if_neg h]
    simp

theorem nodup_keys_addUrl (env : PlanEnv) (d : DocInput) (st : Store) (url : String)
    (hnd : (Store.keys st).Nodup) : (Store.keys (addUrlOccurrence env d st url)).Nodup := by
  rw [keys_addUrl]
  by_cases h : url ∈ Store.keys st
  · rwa [if_pos h]
  · rw [if_neg h]
    rw [List.nodup_append]
    exact ⟨hnd, List.nodup_singleton url, by simpa using h⟩

theorem occList_addUrl (env : PlanEnv) (d : DocInput) (st : Store) (url u : String) :
    Store.occList (addUrlOccurrence env d st url) u =
      if u = url then Store.occList st u ++ [mkFileOccurrence d url]
      else Store.occList st u := by
  unfold addUrlOccurrence
  by_cases hs : (Store.lookup st url).isSome = true
  · rw [if_pos hs]
    unfold Store.occList Store.lookup
    rw [find?_map_update]
    by_cases hu : u = url
    · subst hu
      obtain ⟨e, hf⟩ : ∃ e, List.find? (fun e => e.1 = u) st = some e := by
        unfold Store.lookup at hs
        cases hfind : List.find? (fun e => (e.1 = u : Bool)) st with
        | none => rw [hfind] at hs; simp at hs
        | some e => exact ⟨e, rfl⟩
      rw [hf]
      have he1 : e.1 = u := by simpa using List.find?_some hf
      simp [he1, appendOccurrence]
    · cases hfind : List.find? (fun e => (e.1 = u : Bool)) st with
      | none => simp [hu]
      | some e' =>
        have he1 : e'.1 = u := by simpa using List.find?_some hfind
        have hne : ¬ e'.1 = url := by rw [he1]; exact hu
        simp [hu, hne]
  · rw [if_neg hs]
    unfold Store.occList Store.lookup
    rw [List.map_append, List.find?_append, find?_map_update]
    have hnone : List.find? (fun e => (e.1 = url : Bool)) st = none := by
      cases hfind : List.find? (fun e => (e.1 = url : Bool)) st with
      | none => rfl
      | some e =>
        exfalso
        apply hs
        unfold Store.lookup
        rw [hfind]
        rfl
    by_cases hu : u = url
    · subst hu
      rw [hnone]
      simp [mkImageUrlRecord, appendOccurrence]
    · cases hfind : List.find? (fun e => (e.1 = u : Bool)) st with
      | none =>
        have : ¬ (url = u) := fun h => hu h.symm
        simp [hu, this, mkImageUrlRecord]
      | some e' =>
        have he1 : e'.1 = u := by simpa using List.find?_some hfind
        have hne : ¬ e'.1 = url := by rw [he1]; exact hu
        simp [hu, hne]

theorem foldUrls_occList (env : PlanEnv) (d : DocInput) (urls : List String) :
    ∀ (st : Store) (u : String), urls.Nodup →
      Store.occList (urls.foldl (addUrlOccurrence env d) st) u =
        Store.occList st u ++ (if u ∈ urls then [mkFileOccurrence d u] else []) := by
  induction urls with
  | nil => intro st u _; simp
  | cons x xs ih =>
    intro st u hnd
    rw [List.foldl_cons, ih _ u (List.nodup_cons.mp hnd).2, occList_addUrl]
    by_cases hu : u = x
    · subst hu
      have hnotin : u ∉ xs := (List.nodup_cons.mp hnd).1
      simp [hnotin]
    · simp [hu]

theorem foldUrls_keys_mem (env : PlanEnv) (d : DocInput) (urls : List String) :
    ∀ (st : Store) (u : String),
      u ∈ Store.keys (urls.foldl (addUrlOccurrence env d) st) ↔
        u ∈ Store.keys st ∨ u ∈ urls := by
  induction urls with
  | nil => intro st u; simp
  | cons x xs ih =>
    intro st u
    rw [List.foldl_cons, ih, mem_keys_addUrl]
    constructor
    · rintro ((h | rfl) | h)
      · exact Or.inl h
      · exact Or.inr (List.mem_cons_self _ _)
      · exact Or.inr (List.mem_cons_of_mem _ h)
    · rintro (h | h)
      · exact Or.inl (Or.inl h)
      · rcases List.mem_cons.mp h with rfl | h
        · exact Or.inl (Or.inr rfl)
        · exact Or.inr h

theorem foldUrls_keys_nodup (env : PlanEnv) (d : DocInput) (urls : List String) :
    ∀ (st : Store), (Store.keys st).Nodup →
      (Store.keys (urls.foldl (addUrlOccurrence env d) st)).Nodup := by
  induction urls with
  | nil => intro st h; simpa using h
  | cons x xs ih =>
    intro st h
    rw [List.foldl_cons]
    exact ih _ (nodup_keys_addUrl env d st x h)

theorem foldDocs_occList (env : PlanEnv) (docs : List DocInput) :
    ∀ (st : Store) (u : String),
      Store.occList (docs.foldl (analyzeDocument env) st) u =
        Store.occList st u ++
          (docs.filter (fun d => u ∈ image_url_keys d.tree)).map
            (fun d => mkFileOccurrence d u) := by
  induction docs with
  | nil => intro st u; simp
  | cons d ds ih =>
    intro st u
    rw [List.foldl_cons, ih]
    show Store.occList (analyzeDocument env st d) u ++ _ = _
    unfold analyzeDocument
    have hnd' : (image_url_keys d.tree).Nodup := firstDedup_nodup _
    rw [foldUrls_occList env d (image_url_keys d.tree) st u hnd']
    rw [List.filter_cons]
    by_cases hmem : u ∈ image_url_keys d.tree
    · simp [hmem, List.append_assoc]
    · simp [hmem]

theorem foldDocs_keys_mem (env : PlanEnv) (docs : List DocInput) :
    ∀ (st : Store) (u : String),
      u ∈ Store.keys (docs.foldl (analyzeDocument env) st) ↔
        u ∈ Store.keys st ∨ ∃ d ∈ docs, u ∈ image_url_keys d.tree := by
  induction docs with
  | nil => intro st u; simp
  | cons d ds ih =>
    intro st u
    rw [List.foldl_cons, ih]
    show u ∈ Store.keys (analyzeDocument env st d) ∨ _ ↔ _
    unfold analyzeDocument
    rw [foldUrls_keys_mem]
    constructor
    · rintro ((h | h) | ⟨d', hd', h⟩)
      · exact Or.inl h
      · exact Or.inr ⟨d, List.mem_cons_self _ _, h⟩
      · exact Or.inr ⟨d', List.mem_cons_of_mem _ hd', h⟩
    · rintro (h | ⟨d', hd', h⟩)
      · exact Or.inl (Or.inl h)
      · rcases List.mem_cons.mp hd' with rfl | hd'
        · exact Or.inl (Or.inr h)
        · exact Or.inr ⟨d', hd', h⟩

theorem foldDocs_keys_nodup (env : PlanEnv) (docs : List DocInput) :
    ∀ (st : Store), (Store.keys st).Nodup →
      (Store.keys (docs.foldl (analyzeDocument env) st)).Nodup := by
  induction docs with
  | nil => intro st h; simpa using h
  | cons d ds ih =>
    intro st h
    rw [List.foldl_cons]
    apply ih
    unfold analyzeDocument
    exact foldUrls_keys_nodup env d _ st h

theorem find?_eq_of_mem_of_nodup (st : Store) (url : String) (rec : ImageUrlRecord)
    (hnd : (Store.keys st).Nodup) (hmem : (url, rec) ∈ st) :
    List.find? (fun e => e.1 = url) st = some (url, rec) := by
  induction st with
  | nil => simp at hmem
  | cons e es ih =>
    rcases List.mem_cons.mp hmem with he | he
    · rw [← he]
      exact List.find?_cons_of_pos _ (by simp)
    · have hurl_in : url ∈ Store.keys es := List.mem_map.mpr ⟨(url, rec), he, rfl⟩
      have hnd' : e.1 ∉ List.map (fun e => e.1) es ∧ (List.map (fun e => e.1) es).Nodup := by
        have := hnd
        simp only [Store.keys, List.map_cons, List.nodup_cons] at this
        exact this
      have hne : ¬ (e.1 = url) := by
        intro h
        apply hnd'.1
        rw [h]
        exact hurl_in
      rw [List.find?_cons_of_neg _ (by simpa using hne)]
      exact ih hnd'.2 he

/-- Claim C4 (amended: for distinct document paths): after the analysis phase
the store contains exactly one record per distinct URL discovered across the
corpus, and each record carries exactly one `FileOccurrenceRecord` per
document in which that URL appears (with duplicate input paths, the same
document contributes one occurrence per appearance in the input list — see
the counterexample). -/
theorem c4_analysis_store_invariant (env : PlanEnv) (docs : List DocInput)
    (hnd : (docs.map (fun d => d.filepath)).Nodup) :
    (Store.keys (get_image_url_occurrences env docs)).Nodup ∧
    (∀ url, url ∈ Store.keys (get_image_url_occurrences env docs) ↔
      ∃ d ∈ docs, url ∈ image_url_keys d.tree) ∧
    (∀ url rec, (url, rec) ∈ get_image_url_occurrences env docs →
      rec.file_occurrences =
        (docs.filter (fun d => url ∈ image_url_keys d.tree)).map
          (fun d => mkFileOccurrence d url) ∧
      (rec.file_occurrences.map (fun fo => fo.filepath)).Nodup ∧
      (∀ fp, fp ∈ rec.file_occurrences.map (fun fo => fo.filepath) ↔
        ∃ d ∈ docs, d.filepath = fp ∧ url ∈ image_url_keys d.tree)) := by
  have hkeys_nodup : (Store.keys (get_image_url_occurrences env docs)).Nodup := by
    unfold get_image_url_occurrences
    exact foldDocs_keys_nodup env docs [] (by simp [Store.keys])
  refine ⟨hkeys_nodup, ?_, ?_⟩
  · intro url
    unfold get_image_url_occurrences
    rw [foldDocs_keys_mem]
    simp [Store.keys]
  · intro url rec hmem
    have hocc : rec.file_occurrences =
        Store.occList (get_image_url_occurrences env docs) url := by
      unfold Store.occList Store.lookup
      rw [find?_eq_of_mem_of_nodup _ _ _ hkeys_nodup hmem]
      rfl
    have hocc2 : Store.occList (get_image_url_occurrences env docs) url =
        (docs.filter (fun d => url ∈ image_url_keys d.tree)).map
          (fun d => mkFileOccurrence d url) := by
      unfold get_image_url_occurrences
      rw [foldDocs_occList]
      simp [Store.occList, Store.lookup]
    have hfo : rec.file_occurrences =
        (docs.filter (fun d => url ∈ image_url_keys d.tree)).map
          (fun d => mkFileOccurrence d url) := hocc.trans hocc2
    refine ⟨hfo, ?_, ?_⟩
    · rw [hfo, List.map_map]
      have : ((fun fo : FileOccurrenceRecord => fo.filepath) ∘ fun d => mkFileOccurrence d url) =
          fun d : DocInput => d.filepath := rfl
      rw [this]
      exact List.Nodup.sublist (List.Sublist.map _ (List.filter_sublist docs)) hnd
    · intro fp
      rw [hfo, List.map_map]
      constructor
      · intro h
        obtain ⟨d, hd, hdeq⟩ := List.mem_map.mp h
        have hdf := List.mem_filter.mp hd
        exact ⟨d, hdf.1, hdeq, by simpa using hdf.2⟩
      · rintro ⟨d, hd, hfp, hurl⟩
        exact List.mem_map.mpr ⟨d, List.mem_filter.mpr ⟨hd, by simpa using hurl⟩, hfp⟩

/-- Witness for C4 at a concrete one-document corpus. -/
theorem c4_witness :
    ((List.map (fun d => d.filepath) [c4ExampleDoc]).Nodup) ∧
    ((Store.keys (get_image_url_occurrences {} [c4ExampleDoc])).Nodup ∧
      (∀ url, url ∈ Store.keys (get_image_url_occurrences {} [c4ExampleDoc]) ↔
        ∃ d ∈ [c4ExampleDoc], url ∈ image_url_keys d.tree) ∧
      (∀ url rec, (url, rec) ∈ get_image_url_occurrences {} [c4ExampleDoc] →
        rec.file_occurrences =
          ([c4ExampleDoc].filter (fun d => url ∈ image_url_keys d.tree)).map
            (fun d => mkFileOccurrence d url) ∧
        (rec.file_occurrences.map (fun fo => fo.filepath)).Nodup ∧
        (∀ fp, fp ∈ rec.file_occurrences.map (fun fo => fo.filepath) ↔
          ∃ d ∈ [c4ExampleDoc], d.filepath = fp ∧ url ∈ image_url_keys d.tree))) :=
  ⟨by decide, c4_analysis_store_invariant {} [c4ExampleDoc] (by decide)⟩

/-- Claim C4 counterexample: with the same document path appearing twice in
the input list, the URL's record receives two occurrence records for that one
document, so "exactly one occurrence record per document" fails for plain
lists of paths; it holds for lists of distinct paths (the amended claim). -/
theorem c4_counterexample :
    (Store.occList (get_image_url_occurrences {} [c4ExampleDoc, c4ExampleDoc]) "http://u").map
      (fun fo => fo.filepath) = ["f.md", "f.md"] ∧
    ¬ ((Store.occList (get_image_url_occurrences {} [c4ExampleDoc, c4ExampleDoc]) "http://u").map
      (fun fo => fo.filepath)).Nodup := by
  constructor
  · decide
  · decide

end MID
